import Mathlib

/-!
Verification of the batch loading engine of the python data generator
(`simulate_data.py`, `test_connection.py`).

The Python source is shallowly embedded:

* `generate_batches` mirrors the generator function `generate_batches`
  of `simulate_data.py` (loop over `range(1, num_records + 1)`,
  flushing the accumulated batch whenever `i % batch_size == 0`, and a
  trailing `if batch: yield batch`).  Record creation (the two calls to
  the `random` module per record) is abstracted by an oracle
  `gen : ℤ → α` giving the record built at loop index `i`.
* the record constructors (`random.uniform` plus `round(·, 2)` and the
  ten `random.choices` draws from `string.ascii_letters + string.digits`)
  are embedded by `recordGen`, with the random draws as oracles.
* `insert_batch_pool`, `insert_records` and `insert_records_concurrent`
  are embedded as effect-trace programs over an exception monad
  (`Except Unit` threaded with a state that records the pool/connection
  events that happened), with one fault oracle per fallible driver call
  (`getconn`, `execute_values`, `commit`).
* `parse_jdbc_url` (both copies) and `load_db_config` are embedded over
  `List Char` with models of Python's `str.split`, `str.split(sep, 1)`
  and `int(...)`; a raised `ValueError` is the `Except.error` case.
-/

namespace SimData

/-! ## Batch sequencer: `generate_batches` -/

/-- The loop body of `generate_batches` in `simulate_data.py`, by
recursion on the number of remaining iterations of
`for i in range(1, num_records + 1)`.  `i` is the current loop index,
`batch` the accumulated batch.  After the loop, `if batch: yield batch`. -/
def gbLoop {α : Type} (gen : ℤ → α) (b : ℤ) : ℕ → ℤ → List α → List (List α)
  | 0, _, batch => if batch.isEmpty then [] else [batch]
  | n + 1, i, batch =>
    let batch2 := batch ++ [gen i]
    if i % b = 0 then batch2 :: gbLoop gen b n (i + 1) []
    else gbLoop gen b n (i + 1) batch2

/-- Function `generate_batches(num_records, batch_size)` from `simulate_data.py`:
the loop runs over `range(1, num_records + 1)`, i.e. `num_records.toNat`
iterations starting at index 1 with an empty accumulated batch. -/
def generate_batches {α : Type} (gen : ℤ → α) (num_records batch_size : ℤ) :
    List (List α) :=
  gbLoop gen batch_size num_records.toNat 1 []

/-- Ghost size function: the sizes of the batches emitted by the loop
when the current batch already holds `r` records and `n` loop
iterations remain (`b` is the batch size). -/
def tailSizes (b : ℕ) : ℕ → ℕ → List ℕ
  | r, 0 => if r = 0 then [] else [r]
  | r, n + 1 => if r + 1 = b then b :: tailSizes b 0 n else tailSizes b (r + 1) n

theorem gbLoop_lengths {α : Type} (gen : ℤ → α) (b : ℤ) (hb : 0 < b) :
    ∀ (n : ℕ) (q : ℤ) (batch : List α), (batch.length : ℤ) < b →
      (gbLoop gen b n (q * b + batch.length + 1) batch).map List.length =
        tailSizes b.toNat batch.length n := by
  intro n
  induction n with
  | zero =>
    intro q batch _
    simp only [gbLoop, tailSizes]
    by_cases hbe : batch = []
    · subst hbe; simp
    · rw [if_neg (by simpa using hbe), if_neg (by simpa using fun h => hbe (List.length_eq_zero.mp h))]
      simp
  | succ n ih =>
    intro q batch hlen
    have hmod : (q * b + (batch.length : ℤ) + 1) % b = ((batch.length : ℤ) + 1) % b := by
      have : q * b + (batch.length : ℤ) + 1 = (batch.length : ℤ) + 1 + b * q := by ring
      rw [this, Int.add_mul_emod_self_left]
    by_cases hfull : (batch.length : ℤ) + 1 = b
    · -- the batch fills up exactly now: flush
      have hflush : (q * b + (batch.length : ℤ) + 1) % b = 0 := by
        rw [hmod, hfull, Int.emod_self]
      simp only [gbLoop, hflush]
      have hnext : q * b + (batch.length : ℤ) + 1 + 1 = (q + 1) * b + ((List.length ([] : List α) : ℤ)) + 1 := by
        simp; linarith
      rw [if_true, hnext, List.map_cons, ih (q + 1) [] (by simpa using hb)]
      have hfullN : batch.length + 1 = b.toNat := by omega
      simp only [tailSizes, if_pos hfullN]
      congr 1
      simp; omega
    · -- batch not full yet: keep accumulating
      have hne : (q * b + (batch.length : ℤ) + 1) % b ≠ 0 := by
        rw [hmod]
        have h1 : (0 : ℤ) ≤ (batch.length : ℤ) + 1 := by positivity
        have h2 : (batch.length : ℤ) + 1 < b := by omega
        rw [Int.emod_eq_of_lt h1 h2]
        omega
      simp only [gbLoop, if_neg hne]
      have hlen2 : ((batch ++ [gen (q * b + (batch.length : ℤ) + 1)]).length : ℤ) < b := by
        simp; omega
      have hnext : q * b + (batch.length : ℤ) + 1 + 1 =
          q * b + ((batch ++ [gen (q * b + (batch.length : ℤ) + 1)]).length : ℤ) + 1 := by
        simp; ring
      rw [hnext, ih q _ hlen2]
      have hb2 : batch.length + 1 ≠ b.toNat := by omega
      simp only [tailSizes, List.length_append, List.length_cons, List.length_nil, if_neg hb2]

theorem tailSizes_sum (b : ℕ) : ∀ (n r : ℕ), (tailSizes b r n).sum = r + n := by
  intro n
  induction n with
  | zero =>
    intro r
    by_cases hr : r = 0 <;> simp [tailSizes, hr]
  | succ n ih =>
    intro r
    by_cases hfull : r + 1 = b
    · simp [tailSizes, hfull, ih]; omega
    · simp [tailSizes, hfull, ih]; omega

theorem tailSizes_length (b : ℕ) (hb : 0 < b) :
    ∀ (n r : ℕ), r < b → (tailSizes b r n).length = (r + n + b - 1) / b := by
  intro n
  induction n with
  | zero =>
    intro r hr
    by_cases hr0 : r = 0
    · simp only [tailSizes, if_pos hr0, List.length_nil]
      rw [eq_comm]
      apply Nat.div_eq_of_lt
      omega
    · simp only [tailSizes, if_neg hr0, List.length_singleton]
      rw [eq_comm]
      apply Nat.div_eq_of_lt_le <;> omega
  | succ n ih =>
    intro r hr
    by_cases hfull : r + 1 = b
    · simp only [tailSizes, if_pos hfull, List.length_cons]
      rw [ih 0 hb]
      have harg : r + (n + 1) + b - 1 = (0 + n + b - 1) + b := by omega
      rw [harg, Nat.add_div_right _ hb]
    · simp only [tailSizes, if_neg hfull]
      rw [ih (r + 1) (by omega)]
      congr 1
      omega

theorem tailSizes_ne_nil (b : ℕ) : ∀ (n r : ℕ), 0 < r + n → tailSizes b r n ≠ [] := by
  intro n
  induction n with
  | zero =>
    intro r hr
    simp only [tailSizes, if_neg (by omega : ¬ r = 0)]
    exact List.cons_ne_nil _ _
  | succ n ih =>
    intro r _
    by_cases hfull : r + 1 = b
    · simp only [tailSizes, if_pos hfull]
      exact List.cons_ne_nil _ _
    · simp only [tailSizes, if_neg hfull]
      exact ih (r + 1) (by omega)

theorem tailSizes_dropLast (b : ℕ) (hb : 0 < b) :
    ∀ (n r : ℕ), r < b → ∀ s ∈ (tailSizes b r n).dropLast, s = b := by
  intro n
  induction n with
  | zero =>
    intro r _ s hs
    by_cases hr0 : r = 0 <;> simp [tailSizes, hr0] at hs
  | succ n ih =>
    intro r hr s hs
    by_cases hfull : r + 1 = b
    · simp only [tailSizes, if_pos hfull] at hs
      by_cases hn : n = 0
      · subst hn; simp [tailSizes] at hs
      · rw [List.dropLast_cons_of_ne_nil (tailSizes_ne_nil b n 0 (by omega))] at hs
        rcases List.mem_cons.mp hs with hs | hs
        · exact hs
        · exact ih 0 hb s hs
    · simp only [tailSizes, if_neg hfull] at hs
      exact ih (r + 1) (by omega) s hs

theorem tailSizes_getLast (b : ℕ) (hb : 0 < b) :
    ∀ (n r : ℕ), r < b → 0 < r + n →
      (tailSizes b r n).getLast? =
        some (if (r + n) % b = 0 then b else (r + n) % b) := by
  intro n
  induction n with
  | zero =>
    intro r hr hpos
    simp only [tailSizes, if_neg (by omega : ¬ r = 0), Nat.add_zero]
    rw [Nat.mod_eq_of_lt hr, if_neg (by omega)]
    rfl
  | succ n ih =>
    intro r hr _
    by_cases hfull : r + 1 = b
    · simp only [tailSizes, if_pos hfull]
      by_cases hn : n = 0
      · subst hn
        have : (r + 1) % b = 0 := by rw [hfull, Nat.mod_self]
        simp only [tailSizes, if_pos rfl]
        rw [if_pos this]
        rfl
      · obtain ⟨x, xs, hx⟩ := List.exists_cons_of_ne_nil (tailSizes_ne_nil b n 0 (by omega))
        rw [hx, List.getLast?_cons_cons, ← hx, ih 0 hb (by omega)]
        have : (r + (n + 1)) % b = (0 + n) % b := by
          have h1 : r + (n + 1) = n + b := by omega
          rw [h1, Nat.add_mod_right]
          simp
        rw [this]
    · simp only [tailSizes, if_neg hfull]
      rw [ih (r + 1) (by omega) (by omega)]
      have : r + 1 + n = r + (n + 1) := by omega
      rw [this]

theorem tailSizes_pos (b : ℕ) (hb : 0 < b) :
    ∀ (n r : ℕ), ∀ s ∈ tailSizes b r n, 0 < s := by
  intro n
  induction n with
  | zero =>
    intro r s hs
    by_cases hr0 : r = 0 <;> simp [tailSizes, hr0] at hs
    omega
  | succ n ih =>
    intro r s hs
    by_cases hfull : r + 1 = b
    · simp only [tailSizes, if_pos hfull, List.mem_cons] at hs
      rcases hs with hs | hs
      · omega
      · exact ih 0 s hs
    · simp only [tailSizes, if_neg hfull] at hs
      exact ih (r + 1) s hs

theorem generate_batches_sizes {α : Type} (gen : ℤ → α) (n b : ℤ) (hb : 0 < b) :
    (generate_batches gen n b).map List.length = tailSizes b.toNat 0 n.toNat := by
  have h := gbLoop_lengths gen b hb n.toNat 0 [] (by simpa using hb)
  simpa [generate_batches] using h

/-- Every element of every batch produced by `generate_batches` is a
value of the record oracle `gen` (no record is produced in any other
way); stated as preservation of an arbitrary predicate. -/
theorem gbLoop_mem {α : Type} (gen : ℤ → α) (b : ℤ) {P : α → Prop}
    (hgen : ∀ i, P (gen i)) :
    ∀ (n : ℕ) (i : ℤ) (batch : List α), (∀ x ∈ batch, P x) →
      ∀ bl ∈ gbLoop gen b n i batch, ∀ x ∈ bl, P x := by
  intro n
  induction n with
  | zero =>
    intro i batch hbatch bl hbl x hx
    simp only [gbLoop] at hbl
    by_cases hbe : batch.isEmpty
    · simp [hbe] at hbl
    · rw [if_neg hbe] at hbl
      simp only [List.mem_singleton] at hbl
      subst hbl
      exact hbatch x hx
  | succ n ih =>
    intro i batch hbatch bl hbl x hx
    have hbatch2 : ∀ y ∈ batch ++ [gen i], P y := by
      intro y hy
      rcases List.mem_append.mp hy with hy | hy
      · exact hbatch y hy
      · rw [List.mem_singleton] at hy
        subst hy
        exact hgen i
    simp only [gbLoop] at hbl
    by_cases hmod : i % b = 0
    · rw [if_pos hmod] at hbl
      rcases List.mem_cons.mp hbl with hbl | hbl
      · subst hbl
        exact hbatch2 x hx
      · exact ih (i + 1) [] (by simp) bl hbl x hx
    · rw [if_neg hmod] at hbl
      exact ih (i + 1) _ hbatch2 bl hbl x hx

/-- C2: for `total_records > 0` and `batch_size > 0`, `generate_batches`
yields `ceil(total_records / batch_size)` batches whose sizes sum to
`total_records`; every batch except possibly the last has exactly
`batch_size` records, and the last has `total_records mod batch_size`
records if that is nonzero, otherwise `batch_size`. -/
theorem generate_batches_partition {α : Type} (gen : ℤ → α) (n b : ℤ)
    (hn : 0 < n) (hb : 0 < b) :
    (generate_batches gen n b).length = ((n + b - 1) / b).toNat ∧
    ((generate_batches gen n b).map List.length).sum = n.toNat ∧
    (∀ s ∈ ((generate_batches gen n b).map List.length).dropLast, s = b.toNat) ∧
    ((generate_batches gen n b).map List.length).getLast? =
      some (if n % b = 0 then b.toNat else (n % b).toNat) := by
  obtain ⟨a, rfl⟩ : ∃ a : ℕ, n = (a : ℤ) := ⟨n.toNat, (Int.toNat_of_nonneg hn.le).symm⟩
  obtain ⟨c, rfl⟩ : ∃ c : ℕ, b = (c : ℤ) := ⟨b.toNat, (Int.toNat_of_nonneg hb.le).symm⟩
  have ha : 0 < a := by exact_mod_cast hn
  have hc : 0 < c := by exact_mod_cast hb
  have hsizes := generate_batches_sizes gen (a : ℤ) (c : ℤ) hb
  rw [Int.toNat_natCast, Int.toNat_natCast] at hsizes
  refine ⟨?_, ?_, ?_, ?_⟩
  · have hlen : (generate_batches gen (a : ℤ) (c : ℤ)).length =
        ((generate_batches gen (a : ℤ) (c : ℤ)).map List.length).length := by
      rw [List.length_map]
    rw [hlen, hsizes, tailSizes_length c hc a 0 hc]
    have h1 : ((a : ℤ) + c - 1) = ((a + c - 1 : ℕ) : ℤ) := by omega
    rw [h1, ← Int.natCast_div, Int.toNat_natCast]
    congr 1
    omega
  · rw [hsizes, tailSizes_sum, Int.toNat_natCast]
    omega
  · rw [hsizes]
    exact tailSizes_dropLast c hc a 0 hc
  · rw [hsizes, tailSizes_getLast c hc a 0 hc (by omega)]
    simp only [Nat.zero_add]
    have hmod : ((a : ℤ) % (c : ℤ)) = ((a % c : ℕ) : ℤ) := (Int.natCast_mod a c).symm
    by_cases h0 : a % c = 0
    · have hz : ((a : ℤ) % (c : ℤ)) = 0 := by rw [hmod, h0]; rfl
      rw [if_pos h0, if_pos hz, Int.toNat_natCast]
    · have hz : ((a : ℤ) % (c : ℤ)) ≠ 0 := by
        rw [hmod]
        exact_mod_cast h0
      rw [if_neg h0, if_neg hz, hmod, Int.toNat_natCast]

/-- C2 witness at `total_records = 5`, `batch_size = 2`
(sizes `[2, 2, 1]`). -/
theorem generate_batches_partition_witness :
    (generate_batches (fun i : ℤ => i) 5 2).length = ((5 + 2 - 1) / 2 : ℤ).toNat ∧
    ((generate_batches (fun i : ℤ => i) 5 2).map List.length).sum = (5 : ℤ).toNat ∧
    (2 : ℕ) = (2 : ℤ).toNat ∧
    ((generate_batches (fun i : ℤ => i) 5 2).map List.length).getLast? =
      some (if (5 : ℤ) % 2 = 0 then (2 : ℤ).toNat else ((5 : ℤ) % 2).toNat) := by
  have h := generate_batches_partition (fun i : ℤ => i) 5 2 (by decide) (by decide)
  exact ⟨h.1, h.2.1, h.2.2.1 2 (by decide), h.2.2.2⟩

/-- C10: for `num_records ≤ 0` the sequencer yields no batches (and the
loop body never runs, so no error is possible); for `batch_size > 0`
every batch it yields is non-empty. -/
theorem generate_batches_edge {α : Type} (gen : ℤ → α) (n b : ℤ) :
    (n ≤ 0 → generate_batches gen n b = []) ∧
    (0 < b → ∀ batch ∈ generate_batches gen n b, batch ≠ []) := by
  constructor
  · intro hn
    unfold generate_batches
    rw [Int.toNat_of_nonpos hn]
    rfl
  · intro hb batch hmem hcontra
    subst hcontra
    have hmem0 : (0 : ℕ) ∈ (generate_batches gen n b).map List.length := by
      exact List.mem_map_of_mem _ hmem
    rw [generate_batches_sizes gen n b hb] at hmem0
    have := tailSizes_pos b.toNat (by omega) n.toNat 0 0 hmem0
    omega

/-- C10 witness: `num_records = -3` yields no batches, and at
`num_records = 5, batch_size = 2` the batch `[1, 2]` (a member of the
output) is non-empty. -/
theorem generate_batches_edge_witness :
    generate_batches (fun i : ℤ => i) (-3) 2 = [] ∧
    [(1 : ℤ), 2] ≠ ([] : List ℤ) := by
  refine ⟨(generate_batches_edge (fun i : ℤ => i) (-3) 2).1 (by decide), ?_⟩
  exact (generate_batches_edge (fun i : ℤ => i) 5 2).2 (by decide) [1, 2] (by decide)

/-! ## Record generator

Each record is built as
`amount = round(random.uniform(1.0, 1000.0), 2)` and
`description = ''.flatten(random.choices(string.ascii_letters + string.digits, k=10))`.
The random draws are oracles: `u i` is the value returned by
`random.uniform(1.0, 1000.0)` at loop index `i` (so `1 ≤ u i ≤ 1000`),
and `ch i k` is the index into the 62-character alphabet chosen by the
`k`-th of the ten `random.choices` draws.  Python's `round` uses
round-half-to-even, embedded by `roundHalfEven`. -/

/-- The alphabet `string.ascii_letters + string.digits` (52 letters then 10 digits). -/
def alphanum : List Char :=
  "abcdefghijklmnopqrstuvwxyzABCDEFGHIJKLMNOPQRSTUVWXYZ0123456789".toList

theorem alphanum_length : alphanum.length = 62 := by decide

/-- Round-half-to-even on rationals (the tie-breaking rule of Python 3's
builtin `round`). -/
def roundHalfEven (q : ℚ) : ℤ :=
  if q - Int.floor q < 1 / 2 then Int.floor q
  else if (1 : ℚ) / 2 < q - Int.floor q then Int.floor q + 1
  else if Int.floor q % 2 = 0 then Int.floor q else Int.floor q + 1

/-- Python `round(q, 2)`: round `q * 100` half-to-even, divide by 100. -/
def pyRound2 (q : ℚ) : ℚ := (roundHalfEven (q * 100) : ℚ) / 100

theorem roundHalfEven_bounds (q : ℚ) (a b : ℤ) (hqa : (a : ℚ) ≤ q) (hqb : q ≤ (b : ℚ)) :
    a ≤ roundHalfEven q ∧ roundHalfEven q ≤ b := by
  have hfa : a ≤ Int.floor q := Int.le_floor.mpr hqa
  have hfq : (Int.floor q : ℚ) ≤ q := Int.floor_le q
  constructor
  · unfold roundHalfEven
    split
    · exact hfa
    · split
      · omega
      · split <;> omega
  · unfold roundHalfEven
    have hfb : Int.floor q ≤ b := by
      have : (Int.floor q : ℚ) ≤ (b : ℚ) := le_trans hfq hqb
      exact_mod_cast this
    split
    · exact hfb
    · -- in the remaining branches `q - ⌊q⌋ ≥ 1/2`, so `⌊q⌋ < b`
      rename_i hlt
      push_neg at hlt
      have hfltb : Int.floor q < b := by
        have h1 : (Int.floor q : ℚ) + 1 / 2 ≤ q := by linarith
        have h2 : (Int.floor q : ℚ) < (b : ℚ) := by linarith
        exact_mod_cast h2
      split
      · omega
      · split <;> omega

theorem pyRound2_range (q : ℚ) (h1 : 1 ≤ q) (h2 : q ≤ 1000) :
    1 ≤ pyRound2 q ∧ pyRound2 q ≤ 1000 ∧ (pyRound2 q * 100).den = 1 := by
  have hb := roundHalfEven_bounds (q * 100) 100 100000 (by push_cast; linarith) (by push_cast; linarith)
  obtain ⟨hlo, hhi⟩ := hb
  have hloQ : (100 : ℚ) ≤ (roundHalfEven (q * 100) : ℚ) := by exact_mod_cast hlo
  have hhiQ : ((roundHalfEven (q * 100) : ℚ)) ≤ 100000 := by exact_mod_cast hhi
  refine ⟨?_, ?_, ?_⟩
  · unfold pyRound2
    rw [le_div_iff₀ (by norm_num : (0 : ℚ) < 100)]
    linarith
  · unfold pyRound2
    rw [div_le_iff₀ (by norm_num : (0 : ℚ) < 100)]
    linarith
  · have : pyRound2 q * 100 = (roundHalfEven (q * 100) : ℚ) := by
      unfold pyRound2
      field_simp
    rw [this]
    exact Rat.den_intCast _

/-- The record built at loop index `i`:
`(round(random.uniform(1.0, 1000.0), 2), ''.flatten(random.choices(alphanum, k=10)))`,
with the two random sources as oracles `u` and `ch`. -/
def recordGen (u : ℤ → ℚ) (ch : ℤ → Fin 10 → Fin 62) (i : ℤ) : ℚ × List Char :=
  (pyRound2 (u i),
   List.ofFn fun k => alphanum.get (Fin.cast alphanum_length.symm (ch i k)))

/-- C5: every generated record has a description of exactly 10
characters, each drawn from the 62-symbol alphabet
`string.ascii_letters + string.digits`, and an amount in `[1, 1000]`
with at most 2 decimal places (`amount * 100` is an integer), given
that `random.uniform(1.0, 1000.0)` returns values in `[1, 1000]`. -/
theorem record_properties (u : ℤ → ℚ) (ch : ℤ → Fin 10 → Fin 62) (n b : ℤ)
    (hu : ∀ i, 1 ≤ u i ∧ u i ≤ 1000) :
    ∀ bl ∈ generate_batches (recordGen u ch) n b, ∀ r ∈ bl,
      r.2.length = 10 ∧ (∀ c ∈ r.2, c ∈ alphanum) ∧
      1 ≤ r.1 ∧ r.1 ≤ 1000 ∧ (r.1 * 100).den = 1 := by
  apply gbLoop_mem (recordGen u ch) b (P := fun r =>
    r.2.length = 10 ∧ (∀ c ∈ r.2, c ∈ alphanum) ∧
    1 ≤ r.1 ∧ r.1 ≤ 1000 ∧ (r.1 * 100).den = 1)
  · intro i
    obtain ⟨h1, h2⟩ := hu i
    have hr := pyRound2_range (u i) h1 h2
    refine ⟨by simp [recordGen], ?_, hr.1, hr.2.1, hr.2.2⟩
    intro c hc
    simp only [recordGen, List.mem_ofFn] at hc
    obtain ⟨k, hk⟩ := hc
    rw [← hk]
    exact List.get_mem _ _ _
  · intro x hx
    simp at hx

/-- C5 witness: with the uniform draw pinned to `500` and every
character draw pinned to index 0, the single generated record at
`num_records = batch_size = 1` satisfies the non-quantified conjuncts. -/
theorem record_properties_witness :
    ((recordGen (fun _ => (500 : ℚ)) (fun _ _ => (0 : Fin 62)) 1).2.length = 10) ∧
    (1 ≤ (recordGen (fun _ => (500 : ℚ)) (fun _ _ => (0 : Fin 62)) 1).1) ∧
    ((recordGen (fun _ => (500 : ℚ)) (fun _ _ => (0 : Fin 62)) 1).1 ≤ 1000) ∧
    (((recordGen (fun _ => (500 : ℚ)) (fun _ _ => (0 : Fin 62)) 1).1 * 100).den = 1) := by
  have hgb : generate_batches (recordGen (fun _ => (500 : ℚ)) (fun _ _ => (0 : Fin 62))) 1 1 =
      [[recordGen (fun _ => (500 : ℚ)) (fun _ _ => (0 : Fin 62)) 1]] := rfl
  have h := record_properties (fun _ => (500 : ℚ)) (fun _ _ => (0 : Fin 62)) 1 1
    (fun _ => ⟨by norm_num, by norm_num⟩)
    [recordGen (fun _ => (500 : ℚ)) (fun _ _ => (0 : Fin 62)) 1]
    (by rw [hgb]; exact List.mem_singleton_self _)
    (recordGen (fun _ => (500 : ℚ)) (fun _ _ => (0 : Fin 62)) 1)
    (List.mem_singleton_self _)
  exact ⟨h.1, h.2.2.1, h.2.2.2.1, h.2.2.2.2⟩

/-! ## Effect-trace model of the database drivers

The fallible psycopg2 calls made by `insert_batch_pool`,
`insert_records` and `insert_records_concurrent` are modelled by an
exception monad threaded with a state recording the connection/pool
events that were performed.  Whether a given `getconn` /
`execute_values` / `commit` call raises is an input (a fault oracle);
`rollback`, `putconn`, `print` and `closeall` are modelled as always
succeeding (the source calls them unguarded). -/

/-- Observable connection/pool events. -/
inductive Ev : Type where
  | getconn : Ev
  | execute : Ev
  | commit : Ev
  | rollback : Ev
  | putconn : Ev
  | printErr : Ev
  | poolCreate : ℤ → ℤ → Ev
  | closeall : Ev
deriving DecidableEq

/-- State of one `insert_batch_pool` call: the events performed so far,
and whether the local variable `conn` currently holds a connection
(`conn = None` initially). -/
structure PState : Type where
  trace : List Ev
  conn : Bool
deriving DecidableEq

/-- An exception monad (`Except Unit` = a Python exception in flight)
that keeps its state even when an exception is raised, as Python does. -/
def M (α : Type) : Type := PState → Except Unit α × PState

instance : Monad M where
  pure a := fun s => (Except.ok a, s)
  bind m f := fun s =>
    match m s with
    | (Except.ok a, s2) => f a s2
    | (Except.error e, s2) => (Except.error e, s2)

/-- Python `try: body except Exception: handler` — on any exception in `body`
the handler runs (from the state body left behind). -/
def pyTryExcept {α : Type} (body handler : M α) : M α := fun s =>
  match body s with
  | (Except.ok a, s2) => (Except.ok a, s2)
  | (Except.error _, s2) => handler s2

/-- Python `try: body finally: fin` — `fin` runs whether or not `body` raised;
an exception from `body` resumes after `fin` completes. -/
def pyTryFinally {α : Type} (body : M α) (fin : M Unit) : M α := fun s =>
  match body s with
  | (Except.ok a, s2) =>
    match fin s2 with
    | (Except.ok _, s3) => (Except.ok a, s3)
    | (Except.error e, s3) => (Except.error e, s3)
  | (Except.error e, s2) =>
    match fin s2 with
    | (Except.ok _, s3) => (Except.error e, s3)
    | (Except.error e2, s3) => (Except.error e2, s3)

/-- Call `conn = connection_pool.getconn()`: on success records the event
and sets `conn`; on failure raises with `conn` still unset. -/
def opGetconn (fail : Bool) : M Unit := fun s =>
  if fail then (Except.error (), s)
  else (Except.ok (), ⟨s.trace ++ [Ev.getconn], true⟩)

/-- Call `execute_values(cur, insert_sql, batch)` on the cursor of `conn`. -/
def opExec (fail : Bool) : M Unit := fun s =>
  if fail then (Except.error (), s)
  else (Except.ok (), ⟨s.trace ++ [Ev.execute], s.conn⟩)

/-- Call `conn.commit()`. -/
def opCommit (fail : Bool) : M Unit := fun s =>
  if fail then (Except.error (), s)
  else (Except.ok (), ⟨s.trace ++ [Ev.commit], s.conn⟩)

/-- Call `print(f"Error inserting batch for ...")` in the except clause. -/
def opPrint : M Unit := fun s => (Except.ok (), ⟨s.trace ++ [Ev.printErr], s.conn⟩)

/-- Statement `if conn: conn.rollback()`. -/
def opRollbackIfConn : M Unit := fun s =>
  if s.conn then (Except.ok (), ⟨s.trace ++ [Ev.rollback], s.conn⟩)
  else (Except.ok (), s)

/-- Statement `if conn: connection_pool.putconn(conn)`. -/
def opPutconnIfConn : M Unit := fun s =>
  if s.conn then (Except.ok (), ⟨s.trace ++ [Ev.putconn], s.conn⟩)
  else (Except.ok (), s)

/-- Function `insert_batch_pool(connection_pool, table_name, batch)` from
`simulate_data.py`: a `try / except Exception / finally` around
getconn, execute, commit; the except clause prints and rolls back, the
finally clause returns the connection to the pool. -/
def insert_batch_pool (gFail eFail cFail : Bool) : M Unit :=
  pyTryFinally
    (pyTryExcept
      (do
        opGetconn gFail
        opExec eFail
        opCommit cFail)
      (do
        opPrint
        opRollbackIfConn))
    opPutconnIfConn

/-- One complete `insert_batch_pool` call, from `conn = None` and an
empty trace. -/
def runIBP (gFail eFail cFail : Bool) : Except Unit Unit × PState :=
  insert_batch_pool gFail eFail cFail ⟨[], false⟩

/-- Returns `true` iff no exception is in flight. -/
def exceptOk : Except Unit Unit → Bool
  | Except.ok _ => true
  | Except.error _ => false

/-- C8: `insert_batch_pool` returns normally whatever combination of
getconn / execute_values / commit failures occurs: every exception
raised by those calls is caught inside the function. -/
theorem insert_batch_pool_no_raise :
    ∀ gFail eFail cFail : Bool, exceptOk (runIBP gFail eFail cFail).1 = true := by
  decide

/-- C3: whenever `insert_batch_pool` successfully acquires a connection
(a `getconn` event exists), the connection is returned to the pool
(`putconn` event), whatever the insert outcome; and when the insert or
the commit fails, a `rollback` happens, before the `putconn`. -/
theorem insert_batch_pool_returns_conn :
    ∀ gFail eFail cFail : Bool,
      (Ev.getconn ∈ (runIBP gFail eFail cFail).2.trace →
        Ev.putconn ∈ (runIBP gFail eFail cFail).2.trace) ∧
      (gFail = false → (eFail = true ∨ cFail = true) →
        [Ev.rollback, Ev.putconn].isSublist (runIBP gFail eFail cFail).2.trace = true) := by
  decide

/-- C3 witness: at `gFail = false, eFail = true, cFail = false` the
acquired connection is rolled back and then returned. -/
theorem insert_batch_pool_returns_conn_witness :
    Ev.putconn ∈ (runIBP false true false).2.trace ∧
    [Ev.rollback, Ev.putconn].isSublist (runIBP false true false).2.trace = true := by
  refine ⟨(insert_batch_pool_returns_conn false true false).1 (by decide), ?_⟩
  exact (insert_batch_pool_returns_conn false true false).2 rfl (Or.inl rfl)

/-! ## Sequential driver: `insert_records` -/

/-- The loop of `insert_records(conn, table_name, num_records, batch_size)`
from `simulate_data.py`, by recursion on the remaining iterations of
`for i in range(1, num_records + 1)`.  `k` counts the batches flushed
so far; `eF k` / `cF k` say whether `execute_values` / `conn.commit()`
raises for batch `k`.  There is no `try` here: the first failure
aborts the whole loop, returning `(none, trace so far)`. -/
def irLoop {α : Type} (gen : ℤ → α) (eF cF : ℕ → Bool) (b : ℤ) :
    ℕ → ℤ → List α → ℕ → Option Unit × List Ev
  | 0, _, batch, k =>
    if batch.isEmpty then (some (), [])
    else if eF k then (none, [])
    else if cF k then (none, [Ev.execute])
    else (some (), [Ev.execute, Ev.commit])
  | n + 1, i, batch, k =>
    let batch2 := batch ++ [gen i]
    if i % b = 0 then
      if eF k then (none, [])
      else if cF k then (none, [Ev.execute])
      else
        match irLoop gen eF cF b n (i + 1) [] (k + 1) with
        | (o, tr) => (o, Ev.execute :: Ev.commit :: tr)
    else irLoop gen eF cF b n (i + 1) batch2 k

/-- Function `insert_records(conn, table_name, num_records, batch_size)`:
the loop from index 1 with an empty record list and batch counter 0. -/
def insert_records {α : Type} (gen : ℤ → α) (eF cF : ℕ → Bool)
    (num_records batch_size : ℤ) : Option Unit × List Ev :=
  irLoop gen eF cF batch_size num_records.toNat 1 [] 0

/-- Ghost: sequentially process a list of batches starting at batch
index `k`, stopping at the first execute/commit failure. -/
def procBatches (eF cF : ℕ → Bool) : List β → ℕ → Option Unit × List Ev
  | [], _ => (some (), [])
  | _ :: rest, k =>
    if eF k then (none, [])
    else if cF k then (none, [Ev.execute])
    else
      match procBatches eF cF rest (k + 1) with
      | (o, tr) => (o, Ev.execute :: Ev.commit :: tr)

/-- The sequential driver performs exactly one execute/commit attempt
per batch of `gbLoop`, in order: `irLoop` is `procBatches` composed
with the batch sequence. -/
theorem irLoop_eq_procBatches {α : Type} (gen : ℤ → α) (eF cF : ℕ → Bool) (b : ℤ) :
    ∀ (n : ℕ) (i : ℤ) (batch : List α) (k : ℕ),
      irLoop gen eF cF b n i batch k = procBatches eF cF (gbLoop gen b n i batch) k := by
  intro n
  induction n with
  | zero =>
    intro i batch k
    simp only [irLoop, gbLoop]
    by_cases hbe : batch.isEmpty
    · rw [if_pos hbe, if_pos hbe]
      rfl
    · rw [if_neg hbe, if_neg hbe]
      simp only [procBatches]
  | succ n ih =>
    intro i batch k
    simp only [irLoop, gbLoop]
    by_cases hmod : i % b = 0
    · rw [if_pos hmod, if_pos hmod]
      simp only [procBatches, ih]
    · rw [if_neg hmod, if_neg hmod]
      exact ih (i + 1) _ k

theorem procBatches_first_fail (eF cF : ℕ → Bool) (k0 : ℕ)
    (hbefore : ∀ j < k0, eF j = false ∧ cF j = false)
    (hfail : eF k0 = true ∨ cF k0 = true) :
    ∀ (bs : List β) (k : ℕ), k ≤ k0 → k0 < k + bs.length →
      (procBatches eF cF bs k).1 = none ∧
      (procBatches eF cF bs k).2.count Ev.commit = k0 - k ∧
      (procBatches eF cF bs k).2.count Ev.execute =
        (k0 - k) + (if eF k0 then 0 else 1) := by
  intro bs
  induction bs with
  | nil =>
    intro k hk hlt
    simp at hlt
    omega
  | cons hd tl ih =>
    intro k hk hlt
    by_cases hk0 : k = k0
    · subst hk0
      rcases hfail with hf | hf
      · simp [procBatches, hf]
      · by_cases he : eF k = true
        · simp [procBatches, he]
        · simp only [Bool.not_eq_true] at he
          simp [procBatches, he, hf]
    · have hklt : k < k0 := by omega
      obtain ⟨he, hc⟩ := hbefore k hklt
      simp only [procBatches, he, hc, Bool.false_eq_true, if_false]
      obtain ⟨ho, hcm, hex⟩ := ih (k + 1) (by omega) (by simp at hlt ⊢; omega)
      cases hpb : procBatches eF cF tl (k + 1) with
      | mk o tr =>
        rw [hpb] at ho hcm hex
        simp only at ho hcm hex ⊢
        refine ⟨ho, ?_, ?_⟩
        · rw [List.count_cons, List.count_cons]
          simp [hcm]
          omega
        · rw [List.count_cons, List.count_cons]
          simp [hex]
          omega

/-- C4: in the sequential driver a batch-insert failure is immediately
fatal: with the first failing batch at index `k0` (0-based), the run
returns an error, exactly the `k0` earlier batches were committed, and
no batch after the failing one is attempted (the failing batch itself
contributes an execute attempt only when `execute_values` itself
succeeded and `commit` failed). -/
theorem insert_records_fail_fast {α : Type} (gen : ℤ → α) (eF cF : ℕ → Bool)
    (n b : ℤ) (k0 : ℕ)
    (hbefore : ∀ j < k0, eF j = false ∧ cF j = false)
    (hfail : eF k0 = true ∨ cF k0 = true)
    (hk0 : k0 < (generate_batches gen n b).length) :
    (insert_records gen eF cF n b).1 = none ∧
    (insert_records gen eF cF n b).2.count Ev.commit = k0 ∧
    (insert_records gen eF cF n b).2.count Ev.execute =
      k0 + (if eF k0 then 0 else 1) := by
  have heq : insert_records gen eF cF n b =
      procBatches eF cF (generate_batches gen n b) 0 :=
    irLoop_eq_procBatches gen eF cF b n.toNat 1 [] 0
  rw [heq]
  have h := procBatches_first_fail eF cF k0 hbefore hfail
    (generate_batches gen n b) 0 (by omega) (by omega)
  simpa using h

/-- C4 witness: 5 records in batches of 2, `execute_values` failing on
batch index 1: the run errors out, one batch committed, two executes. -/
theorem insert_records_fail_fast_witness :
    (insert_records (fun i : ℤ => i) (fun k => k == 1) (fun _ => false) 5 2).1 = none ∧
    (insert_records (fun i : ℤ => i) (fun k => k == 1) (fun _ => false) 5 2).2.count Ev.commit = 1 ∧
    (insert_records (fun i : ℤ => i) (fun k => k == 1) (fun _ => false) 5 2).2.count Ev.execute =
      1 + (if (fun k => k == 1) 1 then 0 else 1) := by
  exact insert_records_fail_fast (fun i : ℤ => i) (fun k => k == 1) (fun _ => false) 5 2 1
    (by decide) (Or.inl (by decide)) (by decide)

/-! ## Concurrent driver: `insert_records_concurrent` -/

/-- Helper (same fact as the C8 theorem, kept separate for reuse):
`insert_batch_pool` never lets an exception escape. -/
theorem runIBP_ok : ∀ gFail eFail cFail : Bool,
    exceptOk (runIBP gFail eFail cFail).1 = true := by
  decide

theorem runIBP_commit_count : ∀ gFail eFail cFail : Bool,
    (runIBP gFail eFail cFail).2.trace.count Ev.commit =
      if !gFail && !eFail && !cFail then 1 else 0 := by
  decide

theorem runIBP_rollback_count : ∀ gFail eFail cFail : Bool,
    (runIBP gFail eFail cFail).2.trace.count Ev.rollback =
      if !gFail && (eFail || cFail) then 1 else 0 := by
  decide

/-- The worker executions of one concurrent load job: for each batch
(indexed in submission order) one complete `insert_batch_pool` call,
with per-batch fault oracles.  The thread pool always runs every
submitted task; their effects are collected in submission order. -/
def concRuns {α : Type} (gen : ℤ → α) (gF eF cF : ℕ → Bool) (n b : ℤ) :
    List (Except Unit Unit × PState) :=
  ((generate_batches gen n b).enum).map fun p => runIBP (gF p.1) (eF p.1) (cF p.1)

/-- Function `insert_records_concurrent(db_params, table_name, num_records,
batch_size, num_workers)` from `simulate_data.py`:
creates `SimpleConnectionPool(1, num_workers)`, submits one
`insert_batch_pool` task per batch of `generate_batches`, then the
`as_completed` loop calls `future.result()` on every future — if some
future holds an exception the driver re-raises it there (and
`connection_pool.closeall()` is skipped); otherwise the driver returns
normally after `closeall()`. -/
def insert_records_concurrent {α : Type} (gen : ℤ → α) (gF eF cF : ℕ → Bool)
    (num_records batch_size num_workers : ℤ) : Option Unit × List Ev :=
  match (concRuns gen gF eF cF num_records batch_size).find?
      (fun r => !(exceptOk r.1)) with
  | some _ =>
    (none, Ev.poolCreate 1 num_workers ::
      ((concRuns gen gF eF cF num_records batch_size).map (fun r => r.2.trace)).flatten)
  | none =>
    (some (), (Ev.poolCreate 1 num_workers ::
      ((concRuns gen gF eF cF num_records batch_size).map (fun r => r.2.trace)).flatten)
      ++ [Ev.closeall])

theorem concRuns_find_none {α : Type} (gen : ℤ → α) (gF eF cF : ℕ → Bool) (n b : ℤ) :
    (concRuns gen gF eF cF n b).find? (fun r => !(exceptOk r.1)) = none := by
  rw [List.find?_eq_none]
  intro x hx
  simp only [concRuns, List.mem_map] at hx
  obtain ⟨p, _, rfl⟩ := hx
  simp [runIBP_ok]

theorem count_flatten_eq (a : Ev) :
    ∀ ls : List (List Ev), ls.flatten.count a = (ls.map (fun l => l.count a)).sum := by
  intro ls
  induction ls with
  | nil => simp
  | cons h t ih => simp [List.count_append, ih]

theorem sum_map_ite_eq_countP (p : ℕ → Bool) :
    ∀ l : List ℕ, (l.map (fun k => if p k then 1 else 0)).sum = l.countP p := by
  intro l
  induction l with
  | nil => simp
  | cons h t ih =>
    simp only [List.map_cons, List.sum_cons, List.countP_cons, ih]
    cases hp : p h
    · simp [hp]
    · simp [hp]
      omega

theorem concRuns_count (a : Ev) (f : Bool → Bool → Bool → Bool)
    (hf : ∀ g e c, (runIBP g e c).2.trace.count a = if f g e c then 1 else 0)
    {α : Type} (gen : ℤ → α) (gF eF cF : ℕ → Bool) (n b : ℤ) :
    (((concRuns gen gF eF cF n b).map (fun r => r.2.trace)).flatten).count a =
      (List.range (generate_batches gen n b).length).countP
        (fun k => f (gF k) (eF k) (cF k)) := by
  rw [count_flatten_eq]
  simp only [concRuns, List.map_map]
  have hcongr : ((generate_batches gen n b).enum).map
        ((fun l => l.count a) ∘ (fun r : Except Unit Unit × PState => r.2.trace) ∘
          (fun p : ℕ × List α => runIBP (gF p.1) (eF p.1) (cF p.1))) =
      ((generate_batches gen n b).enum).map
        (fun p => if f (gF p.1) (eF p.1) (cF p.1) then 1 else 0) := by
    apply List.map_congr_left
    intro p _
    simp only [Function.comp_apply]
    exact hf (gF p.1) (eF p.1) (cF p.1)
  rw [hcongr]
  have hfst : ((generate_batches gen n b).enum).map
        (fun p => if f (gF p.1) (eF p.1) (cF p.1) then 1 else 0) =
      (((generate_batches gen n b).enum).map Prod.fst).map
        (fun k => if f (gF k) (eF k) (cF k) then 1 else 0) := by
    rw [List.map_map]
    rfl
  rw [hfst, List.enum_map_fst, sum_map_ite_eq_countP]

/-- C1 counterexample: a concurrent run of 2 batches (2 records, batch
size 1) where batch 0's `execute_values` fails.  The failing batch is
rolled back (and logged), yet the driver completes with a success
result: the failure is not re-raised, so this run is indistinguishable
from a fully successful one by its outcome. -/
theorem concurrent_failure_not_surfaced :
    (0 < (generate_batches (fun i : ℤ => i) 2 1).length ∧
      (fun k : ℕ => k == 0) 0 = true) ∧
    Ev.rollback ∈
      (insert_records_concurrent (fun i : ℤ => i) (fun _ => false) (fun k => k == 0)
        (fun _ => false) 2 1 2).2 ∧
    (insert_records_concurrent (fun i : ℤ => i) (fun _ => false) (fun k => k == 0)
        (fun _ => false) 2 1 2).1 = some () := by
  decide

/-- C1 (amended): the concurrent driver attempts every batch (each
non-failing batch is committed, each failing one rolled back and
logged), but per-batch failures are swallowed inside
`insert_batch_pool`, so `future.result()` never re-raises and the
driver always returns success — the caller cannot distinguish a run
with failed batches from a fully successful one. -/
theorem insert_records_concurrent_completes {α : Type} (gen : ℤ → α)
    (gF eF cF : ℕ → Bool) (n b w : ℤ) :
    (insert_records_concurrent gen gF eF cF n b w).1 = some () ∧
    (insert_records_concurrent gen gF eF cF n b w).2.count Ev.commit =
      (List.range (generate_batches gen n b).length).countP
        (fun k => !gF k && !eF k && !cF k) ∧
    (insert_records_concurrent gen gF eF cF n b w).2.count Ev.rollback =
      (List.range (generate_batches gen n b).length).countP
        (fun k => !gF k && (eF k || cF k)) := by
  unfold insert_records_concurrent
  rw [concRuns_find_none]
  refine ⟨rfl, ?_, ?_⟩
  · have h := concRuns_count Ev.commit (fun g e c => !g && !e && !c)
      runIBP_commit_count gen gF eF cF n b
    simp [List.count_append, List.count_cons, h]
  · have h := concRuns_count Ev.rollback (fun g e c => !g && (e || c))
      runIBP_rollback_count gen gF eF cF n b
    simp [List.count_append, List.count_cons, h]

/-- C6: the concurrent driver creates its pool as
`SimpleConnectionPool(1, num_workers)` (minimum 1, maximum the worker
count) and ends every load job with `closeall()`: the first event of
the run is the pool creation and the last is `closeall`. -/
theorem pool_capacity_and_closeall {α : Type} (gen : ℤ → α)
    (gF eF cF : ℕ → Bool) (n b w : ℤ) :
    (insert_records_concurrent gen gF eF cF n b w).2.head? =
      some (Ev.poolCreate 1 w) ∧
    (insert_records_concurrent gen gF eF cF n b w).2.getLast? =
      some Ev.closeall := by
  have heq : insert_records_concurrent gen gF eF cF n b w =
      (some (), (Ev.poolCreate 1 w ::
        ((concRuns gen gF eF cF n b).map (fun r => r.2.trace)).flatten)
        ++ [Ev.closeall]) := by
    unfold insert_records_concurrent
    rw [concRuns_find_none]
  have heq2 : (insert_records_concurrent gen gF eF cF n b w).2 =
      (Ev.poolCreate 1 w ::
        ((concRuns gen gF eF cF n b).map (fun r => r.2.trace)).flatten)
        ++ [Ev.closeall] := by
    rw [heq]
  refine ⟨?_, ?_⟩
  · rw [heq2]
    rfl
  · rw [heq2, List.getLast?_concat]

/-! ## URL parsing and configuration loading

Python strings are embedded as `List Char`.  `str.split(sep, 1)` is
`pySplit1`, `str.split(sep)` (without maxsplit) is `pySplitAll`, and
the builtin `int(...)` is `pyInt` (optional surrounding spaces, an
optional single sign, then a non-empty run of decimal digits; Python's
underscore grouping and non-ASCII digits are not modelled — immaterial
here, both parsers call the same `int`).  A raised `ValueError` is
`Except.error ()`. -/

/-- Python `s.split(c, 1)`: `none` when the separator does not occur
(so 2-element unpacking raises), otherwise the parts before and after
the first occurrence. -/
def pySplit1 (c : Char) : List Char → Option (List Char × List Char)
  | [] => none
  | x :: xs =>
    if x = c then some ([], xs)
    else
      match pySplit1 c xs with
      | none => none
      | some p => some (x :: p.1, p.2)

/-- Python `s.split(c)` without maxsplit: all fragments, in order (at least
one, possibly empty). -/
def pySplitAll (c : Char) : List Char → List (List Char)
  | [] => [[]]
  | x :: xs =>
    if x = c then [] :: pySplitAll c xs
    else
      match pySplitAll c xs with
      | [] => [[x]]
      | h :: t => (x :: h) :: t

/-- Strip leading and trailing spaces (the whitespace `int()` ignores). -/
def stripSpaces (l : List Char) : List Char :=
  ((l.dropWhile (· = ' ')).reverse.dropWhile (· = ' ')).reverse

/-- Value of a run of decimal digits. -/
def digitsVal (l : List Char) : ℕ :=
  l.foldl (fun acc c => acc * 10 + (c.toNat - 48)) 0

/-- A (possibly signed) run of digits, after the sign was consumed. -/
def pyIntDigits (sgn : ℤ) (l : List Char) : Option ℤ :=
  if l.isEmpty then none
  else if l.all Char.isDigit then some (sgn * (digitsVal l : ℤ)) else none

/-- Python's `int(s)` on a string. -/
def pyInt (l : List Char) : Option ℤ :=
  match stripSpaces l with
  | [] => none
  | c :: cs =>
    if c = '+' then pyIntDigits 1 cs
    else if c = '-' then pyIntDigits (-1) cs
    else pyIntDigits 1 (c :: cs)

/-- The connection parameters extracted from a JDBC URL. -/
structure JdbcParams : Type where
  host : List Char
  port : ℤ
  dbname : List Char
deriving DecidableEq

def jdbcScheme : List Char := "jdbc:".toList

def pgScheme : List Char := "postgresql://".toList

/-- Function `parse_jdbc_url` from `simulate_data.py`: strip an optional
`jdbc:`, require `postgresql://`, then `host_port, dbname =
jdbc_url.split('/', 1)` and `host, port = host_port.split(':')`
(unbounded split: exactly two fragments or a `ValueError`), with
`port = int(port)`. -/
def parse_jdbc_url (url : List Char) : Except Unit JdbcParams :=
  match (if jdbcScheme.isPrefixOf url then url.drop jdbcScheme.length else url) with
  | url1 =>
    if pgScheme.isPrefixOf url1 then
      match pySplit1 '/' (url1.drop pgScheme.length) with
      | none => Except.error ()
      | some (host_port, dbname) =>
        match pySplitAll ':' host_port with
        | [host, port] =>
          match pyInt port with
          | some pn => Except.ok ⟨host, pn, dbname⟩
          | none => Except.error ()
        | _ => Except.error ()
    else Except.error ()

/-- Function `parse_jdbc_url` from `test_connection.py`: identical except that
it uses `host_port.split(':', 1)`. -/
def parse_jdbc_url_test (url : List Char) : Except Unit JdbcParams :=
  match (if jdbcScheme.isPrefixOf url then url.drop jdbcScheme.length else url) with
  | url1 =>
    if pgScheme.isPrefixOf url1 then
      match pySplit1 '/' (url1.drop pgScheme.length) with
      | none => Except.error ()
      | some (host_port, dbname) =>
        match pySplit1 ':' host_port with
        | none => Except.error ()
        | some (host, port) =>
          match pyInt port with
          | some pn => Except.ok ⟨host, pn, dbname⟩
          | none => Except.error ()
    else Except.error ()

theorem pySplitAll_ne_nil (c : Char) : ∀ l : List Char, pySplitAll c l ≠ [] := by
  intro l
  induction l with
  | nil => simp [pySplitAll]
  | cons x xs ih =>
    simp only [pySplitAll]
    by_cases hx : x = c
    · simp [hx]
    · rw [if_neg hx]
      cases h : pySplitAll c xs with
      | nil => simp
      | cons hd tl => simp

theorem pySplit1_none_not_mem (c : Char) :
    ∀ l : List Char, pySplit1 c l = none → c ∉ l := by
  intro l
  induction l with
  | nil =>
    intro _
    simp
  | cons x xs ih =>
    intro h
    simp only [pySplit1] at h
    by_cases hx : x = c
    · rw [if_pos hx] at h
      exact absurd h (by simp)
    · rw [if_neg hx] at h
      cases h2 : pySplit1 c xs with
      | none =>
        have hnm := ih h2
        intro hmem
        rcases List.mem_cons.mp hmem with hmem | hmem
        · exact hx hmem.symm
        · exact hnm hmem
      | some p =>
        rw [h2] at h
        exact absurd h (by simp)

theorem pySplitAll_single (c : Char) :
    ∀ l : List Char, c ∉ l → pySplitAll c l = [l] := by
  intro l
  induction l with
  | nil =>
    intro _
    rfl
  | cons x xs ih =>
    intro h
    have hx : ¬ x = c := fun hc => h (by simp [hc])
    have hxs : c ∉ xs := fun hc => h (List.mem_cons_of_mem _ hc)
    simp only [pySplitAll, if_neg hx, ih hxs]

theorem pySplit1_splitAll (c : Char) :
    ∀ (l a b2 : List Char), pySplit1 c l = some (a, b2) →
      pySplitAll c l = a :: pySplitAll c b2 := by
  intro l
  induction l with
  | nil =>
    intro a b2 h
    simp [pySplit1] at h
  | cons x xs ih =>
    intro a b2 h
    simp only [pySplit1] at h
    by_cases hx : x = c
    · rw [if_pos hx] at h
      simp only [Option.some.injEq, Prod.mk.injEq] at h
      obtain ⟨ha, hb⟩ := h
      subst ha hb
      simp only [pySplitAll, if_pos hx]
    · rw [if_neg hx] at h
      cases h2 : pySplit1 c xs with
      | none =>
        rw [h2] at h
        exact absurd h (by simp)
      | some p =>
        rw [h2] at h
        simp only [Option.some.injEq, Prod.mk.injEq] at h
        obtain ⟨ha, hb⟩ := h
        subst hb
        have := ih p.1 p.2 h2
        simp only [pySplitAll, if_neg hx, this, ← ha]

theorem pySplitAll_two_le (c : Char) :
    ∀ l : List Char, c ∈ l → 2 ≤ (pySplitAll c l).length := by
  intro l
  induction l with
  | nil =>
    intro h
    simp at h
  | cons x xs ih =>
    intro h
    simp only [pySplitAll]
    by_cases hx : x = c
    · rw [if_pos hx]
      have := pySplitAll_ne_nil c xs
      cases hxs : pySplitAll c xs with
      | nil => exact absurd hxs this
      | cons hd tl => simp
    · rw [if_neg hx]
      have hmem : c ∈ xs := by
        rcases List.mem_cons.mp h with h | h
        · exact absurd h.symm hx
        · exact h
      have h2 := ih hmem
      cases hxs : pySplitAll c xs with
      | nil => exact absurd hxs (pySplitAll_ne_nil c xs)
      | cons hd tl =>
        rw [hxs] at h2
        simpa using h2

theorem mem_dropWhile_of_mem {p : Char → Bool} {x : Char} (hx : p x = false) :
    ∀ l : List Char, x ∈ l → x ∈ l.dropWhile p := by
  intro l
  induction l with
  | nil =>
    intro h
    simp at h
  | cons hd tl ih =>
    intro h
    rw [List.dropWhile_cons]
    rcases List.mem_cons.mp h with h | h
    · subst h
      rw [hx]
      simp
    · by_cases hp : p hd = true
      · rw [if_pos hp]
        exact ih h
      · simp only [Bool.not_eq_true] at hp
        rw [hp]
        simp [h]

theorem mem_stripSpaces {x : Char} (hx : ¬ x = ' ') :
    ∀ l : List Char, x ∈ l → x ∈ stripSpaces l := by
  intro l h
  have hb : (x = ' ' : Bool) = false := by
    simp [hx]
  unfold stripSpaces
  rw [List.mem_reverse]
  apply mem_dropWhile_of_mem hb
  rw [List.mem_reverse]
  exact mem_dropWhile_of_mem hb l h

theorem pyIntDigits_colon_none (sgn : ℤ) (l : List Char) (h : ':' ∈ l) :
    pyIntDigits sgn l = none := by
  unfold pyIntDigits
  have hne : l.isEmpty = false := by
    cases l with
    | nil => simp at h
    | cons a t => rfl
  rw [hne]
  have hnall : l.all Char.isDigit = false := by
    rw [List.all_eq_false]
    exact ⟨':', h, by decide⟩
  simp [hnall]

theorem pyInt_colon_none (l : List Char) (h : ':' ∈ l) : pyInt l = none := by
  have hmem : ':' ∈ stripSpaces l := mem_stripSpaces (by decide) l h
  unfold pyInt
  cases hst : stripSpaces l with
  | nil => rfl
  | cons c cs =>
    dsimp only
    rw [hst] at hmem
    by_cases hc : c = '+'
    · rw [if_pos hc]
      apply pyIntDigits_colon_none
      rcases List.mem_cons.mp hmem with hm | hm
      · rw [hc] at hm
        exact absurd hm (by decide)
      · exact hm
    · rw [if_neg hc]
      by_cases hc2 : c = '-'
      · rw [if_pos hc2]
        apply pyIntDigits_colon_none
        rcases List.mem_cons.mp hmem with hm | hm
        · rw [hc2] at hm
          exact absurd hm (by decide)
        · exact hm
      · rw [if_neg hc2]
        exact pyIntDigits_colon_none _ _ hmem

/-- C9: the two `parse_jdbc_url` implementations are equivalent — on
every input either both raise `ValueError` or both return the same
`{host, port, dbname}`.  (When `host_port` holds more than one `:`,
`simulate_data`'s 2-element unpacking of the unbounded split fails,
while `test_connection`'s `int()` fails on the remainder that still
contains a `:` — both a `ValueError`.) -/
theorem parse_jdbc_url_equiv (url : List Char) :
    parse_jdbc_url url = parse_jdbc_url_test url := by
  unfold parse_jdbc_url parse_jdbc_url_test
  by_cases hpg : pgScheme.isPrefixOf
      (if jdbcScheme.isPrefixOf url then url.drop jdbcScheme.length else url)
  · rw [if_pos hpg, if_pos hpg]
    cases hsp : pySplit1 '/'
        ((if jdbcScheme.isPrefixOf url then url.drop jdbcScheme.length else url).drop
          pgScheme.length) with
    | none => rfl
    | some p =>
      obtain ⟨host_port, dbname⟩ := p
      dsimp only
      cases hsp2 : pySplit1 ':' host_port with
      | none =>
        have hnm := pySplit1_none_not_mem ':' host_port hsp2
        rw [pySplitAll_single ':' host_port hnm]
      | some q =>
        obtain ⟨hst, prt⟩ := q
        dsimp only
        rw [pySplit1_splitAll ':' host_port hst prt hsp2]
        by_cases hmem : ':' ∈ prt
        · have h2 := pySplitAll_two_le ':' prt hmem
          cases hall : pySplitAll ':' prt with
          | nil => exact absurd hall (pySplitAll_ne_nil ':' prt)
          | cons x tl =>
            cases tl with
            | nil =>
              rw [hall] at h2
              simp at h2
            | cons y tl2 =>
              rw [pyInt_colon_none prt hmem]
        · rw [pySplitAll_single ':' prt hmem]
  · rw [if_neg hpg, if_neg hpg]

/-- One entry of the JSON config file (the documented shape:
`{url, username, password, ssl: bool}`, each key optional except
`url`).  `conn_info.get("ssl")` is truthy exactly when the optional
boolean is `some true`. -/
structure ConnInfo : Type where
  url : List Char
  username : Option String
  password : Option String
  ssl : Option Bool
deriving DecidableEq

/-- The derived connection parameters `db_params`. -/
structure DbParams : Type where
  host : List Char
  port : ℤ
  dbname : List Char
  user : String
  password : String
  sslmode : String
deriving DecidableEq

/-- Function `load_db_config(config_file, alias)` from `simulate_data.py`
(parsed JSON as an association list): unknown alias raises; otherwise
parse the JDBC URL, add `user`/`password` (defaulting to `""`), and
set `sslmode = "require" if conn_info.get("ssl") else "disable"`. -/
def load_db_config (config : List (String × ConnInfo)) (aliasName : String) :
    Except Unit DbParams :=
  match config.lookup aliasName with
  | none => Except.error ()
  | some ci =>
    match parse_jdbc_url ci.url with
    | Except.error e => Except.error e
    | Except.ok j =>
      Except.ok ⟨j.host, j.port, j.dbname, ci.username.getD "", ci.password.getD "",
        if ci.ssl = some true then "require" else "disable"⟩

/-- C7: whenever `load_db_config` accepts a configuration, the derived
`sslmode` is `"require"` exactly when the entry's ssl flag is true and
`"disable"` otherwise; it is always one of those two strings. -/
theorem load_db_config_sslmode (config : List (String × ConnInfo))
    (aliasName : String) (p : DbParams)
    (h : load_db_config config aliasName = Except.ok p) :
    (p.sslmode = "require" ∨ p.sslmode = "disable") ∧
    ∀ ci, config.lookup aliasName = some ci →
      (p.sslmode = "require" ↔ ci.ssl = some true) := by
  unfold load_db_config at h
  cases hlk : config.lookup aliasName with
  | none =>
    rw [hlk] at h
    exact absurd h (by simp)
  | some ci =>
    rw [hlk] at h
    dsimp only at h
    cases hpj : parse_jdbc_url ci.url with
    | error e =>
      rw [hpj] at h
      exact absurd h (by simp)
    | ok j =>
      rw [hpj] at h
      dsimp only at h
      injection h with h2
      subst h2
      constructor
      · by_cases hssl : ci.ssl = some true
        · rw [if_pos hssl]
          exact Or.inl rfl
        · rw [if_neg hssl]
          exact Or.inr rfl
      · intro ci2 hci2
        injection hci2 with h3
        subst h3
        by_cases hssl : ci.ssl = some true
        · rw [if_pos hssl]
          simp [hssl]
        · rw [if_neg hssl]
          constructor
          · intro hcontra
            have hds : ("disable" : String) = "require" := hcontra
            exact absurd hds (by decide)
          · intro hcontra
            exact absurd hcontra hssl

/-- C7 witness: a config with `ssl = true` yields
`sslmode = "require"`. -/
theorem load_db_config_sslmode_witness :
    ((⟨"localhost".toList, 5432, "mydb".toList, "myuser", "mypassword",
        "require"⟩ : DbParams).sslmode = "require" ∨
     (⟨"localhost".toList, 5432, "mydb".toList, "myuser", "mypassword",
        "require"⟩ : DbParams).sslmode = "disable") ∧
    ((⟨"localhost".toList, 5432, "mydb".toList, "myuser", "mypassword",
        "require"⟩ : DbParams).sslmode = "require" ↔
     (⟨"jdbc:postgresql://localhost:5432/mydb".toList, some "myuser",
        some "mypassword", some true⟩ : ConnInfo).ssl = some true) := by
  have h := load_db_config_sslmode
    [("PSQLDS1", ⟨"jdbc:postgresql://localhost:5432/mydb".toList, some "myuser",
      some "mypassword", some true⟩)]
    "PSQLDS1"
    ⟨"localhost".toList, 5432, "mydb".toList, "myuser", "mypassword", "require"⟩
    (by rfl)
  exact ⟨h.1, h.2 _ rfl⟩

end SimData
